import Mathlib

set_option maxHeartbeats 1000000

/-!
Verification of the `duplicate` stream-replication tool.

The definitions below are a shallow embedding of the core of `main.go`:
the `ring` circular buffer (`Write`, `Read`, `Close`), its constructor
`Ring` with the `withDelay` option, the `io.MultiWriter` fan-out used by
`main` to replicate inbound bytes to every route sink, and the
error-classification step of `Duplicate`'s drain loop.  Bytes are natural
numbers, byte slices are lists, `time.Time`/`time.Duration` values are
integers, and the Go channel backing the descriptor queue is modelled by
its contents, its capacity and a closed flag.
-/

namespace Duplicate

/-- Bytes are modelled as natural numbers. -/
abbrev Byte := Nat

/-- The `poze` chunk descriptor from `main.go`: size and offset of the chunk
inside the circular storage, plus the recorded `elapsed` delay
(a `time.Duration`, modelled as an integer). -/
structure Poze where
  size : Nat
  offset : Nat
  elapsed : Int
deriving Repr, DecidableEq, Inhabited

/-- State of the `ring` struct from `main.go`: the circular byte storage, the
descriptor queue channel (its pending contents, its capacity `qcap` and
whether it has been closed), the write cursor `offset`, the `when` timestamp
(`whenZero` models `time.Time.IsZero`), and the configured `wait`. -/
structure RingState where
  buffer : List Byte
  queue : List Poze
  qcap : Nat
  offset : Nat
  whenZero : Bool
  whenTime : Int
  wait : Int
  closed : Bool
deriving Repr, DecidableEq, Inhabited

/-- Go's `copy(dst[start:], src)`, written positionally: position `p` of
`dst` receives `src[p - start]` when `start ≤ p < start + len src` (bounded
by the length of `dst`, since only positions of `dst` exist); every other
position keeps its old byte.  The number of bytes copied, which Go returns,
is `min (dst.length - start) src.length` and is computed separately at the
call sites. -/
def copyInto (dst : List Byte) (start : Nat) (src : List Byte) : List Byte :=
  (List.range dst.length).map
    (fun p => if start ≤ p ∧ p - start < src.length then src.getD (p - start) 0 else dst.getD p 0)

/-- The storage update of `ring.Write`: `copy(r.buffer[offset:], xs)` copies
`n = min (buffer.length - offset) xs.length` bytes; when that is short
(`n < size`) the wrapping copy `copy(r.buffer, xs[n:])` follows. -/
def writeBuf (buffer : List Byte) (offset : Nat) (xs : List Byte) : List Byte :=
  if min (buffer.length - offset) xs.length < xs.length then
    copyInto (copyInto buffer offset xs) 0 (xs.drop (min (buffer.length - offset) xs.length))
  else copyInto buffer offset xs

/-- The write cursor after `ring.Write`: `r.offset += n` in the straight
case, `r.offset = copy(r.buffer, xs[n:])` (the count that wrapping copy
returns) in the wrapping case. -/
def writeOffset (buffer : List Byte) (offset : Nat) (xs : List Byte) : Nat :=
  if min (buffer.length - offset) xs.length < xs.length then
    min buffer.length (xs.length - min (buffer.length - offset) xs.length)
  else offset + min (buffer.length - offset) xs.length

/-- The descriptor built by `ring.Write`: `elapsed` starts as the configured
`r.wait` and is replaced by `time.Since(r.when)` when interval mode is on
(`r.wait > 0`) and `r.when` has already been set. -/
def writePoze (r : RingState) (xs : List Byte) (now : Int) : Poze :=
  if 0 < r.wait ∧ r.whenZero = false then
    { size := xs.length, offset := r.offset, elapsed := now - r.whenTime }
  else
    { size := xs.length, offset := r.offset, elapsed := r.wait }

/-- Result of `ring.Write` / `io.MultiWriter.Write`: `ok n` is `(n, nil)`,
`errClosed` is `(0, ErrClosed)`, `errShortWrite` is `io.ErrShortWrite`, and
`panicked` models a Go runtime panic. -/
inductive WriteResult
  | ok (n : Nat)
  | errClosed
  | errShortWrite
  | panicked
deriving Repr, DecidableEq

/-- `ring.Write` from `main.go`.  The byte copies, the cursor update and the
`when` timestamp update happen unconditionally, before the descriptor is
offered to the queue channel in a `select` with a `default` branch.  In Go a
send on a closed channel proceeds by panicking, even inside such a `select`;
a full but open queue makes the `select` take its `default` branch, which
returns `(0, ErrClosed)`. -/
def ringWrite (r : RingState) (xs : List Byte) (now : Int) : RingState × WriteResult :=
  let r1 : RingState :=
    { r with
      buffer := writeBuf r.buffer r.offset xs
      offset := writeOffset r.buffer r.offset xs
      whenTime := if 0 < r.wait then now else r.whenTime
      whenZero := if 0 < r.wait then false else r.whenZero }
  if r.closed then (r1, WriteResult.panicked)
  else if r.queue.length < r.qcap then
    ({ r1 with queue := r.queue ++ [writePoze r xs now] }, WriteResult.ok xs.length)
  else (r1, WriteResult.errClosed)

/-- Result of `ring.Close`: `ok` is `nil`, `alreadyClosed` is `ErrClosed`. -/
inductive CloseResult
  | ok
  | alreadyClosed
deriving Repr, DecidableEq

/-- `ring.Close`: a `sync.Once` guards `close(r.queue)`; the first call runs
the closure and returns `nil`, every later call leaves the state alone and
returns `ErrClosed`. -/
def ringClose (r : RingState) : RingState × CloseResult :=
  if r.closed then (r, CloseResult.alreadyClosed)
  else ({ r with closed := true }, CloseResult.ok)

/-- Result of `ring.Read`: `ok n` is `(n, nil)`, `eof` is `(0, io.EOF)`,
`shortBuf` is `(0, io.ErrShortBuffer)`, and `blocked` marks the states in
which the receive from the queue channel suspends the caller. -/
inductive ReadResult
  | ok (n : Nat)
  | eof
  | blocked
  | shortBuf
deriving Repr, DecidableEq

/-- The copy-out step of `ring.Read`: `n := copy(xs, r.buffer[off:])` copies
`min xs.length (buffer.length - off)` bytes; when `n < size` the wrapped
tail follows with `copy(xs[n:], r.buffer)`. -/
def readBuf (buffer : List Byte) (off size : Nat) (xs : List Byte) : List Byte :=
  if min xs.length (buffer.length - off) < size then
    copyInto (copyInto xs 0 (buffer.drop off)) (min xs.length (buffer.length - off)) buffer
  else copyInto xs 0 (buffer.drop off)

/-- `ring.Read` from `main.go`: receiving from the queue channel suspends the
caller while the queue is empty and open (`blocked`), reports `io.EOF` once
it is empty and closed, rejects a caller buffer smaller than the descriptor's
size with `io.ErrShortBuffer` (the descriptor is already consumed), and
otherwise copies the described range out of storage into the caller's buffer
`xs` (threaded through explicitly) and returns the descriptor's size. -/
def ringRead (r : RingState) (xs : List Byte) : RingState × List Byte × ReadResult :=
  match r.queue with
  | [] =>
    if r.closed then (r, xs, ReadResult.eof) else (r, xs, ReadResult.blocked)
  | pz :: rest =>
    if xs.length < pz.size then ({ r with queue := rest }, xs, ReadResult.shortBuf)
    else ({ r with queue := rest }, readBuf r.buffer pz.offset pz.size xs, ReadResult.ok pz.size)

/-- `DefaultQueueSize = 1 << 15` from `main.go`. -/
def DefaultQueueSize : Nat := 32768

/-- `DefaultBufferSize = 8 << 20` from `main.go`. -/
def DefaultBufferSize : Nat := 8388608

/-- `Ring(size, withDelay(delay))` as `main` builds it for a route: a
non-positive `size` is silently replaced by `DefaultBufferSize` (no error is
ever reported), `withDelay` only takes effect for a positive delay, the
queue capacity is `DefaultQueueSize`, and the ring starts open, with the
cursor at zero and a zero `when` timestamp. -/
def mkRing (size : Int) (delay : Int) : RingState :=
  { buffer := List.replicate (if size ≤ 0 then DefaultBufferSize else size.toNat) 0
    queue := []
    qcap := DefaultQueueSize
    offset := 0
    whenZero := true
    whenTime := 0
    wait := if 0 < delay then delay else 0
    closed := false }

/-- `io.MultiWriter(ws...).Write` over the ring sinks of `main`: each sink is
written in turn and the loop returns at the first error or short write,
leaving every later sink untouched. -/
def multiWrite (rs : List RingState) (xs : List Byte) (now : Int) :
    List RingState × WriteResult :=
  match rs with
  | [] => ([], WriteResult.ok xs.length)
  | r :: rest =>
    match ringWrite r xs now with
    | (r1, WriteResult.ok n) =>
      if n = xs.length then
        let res := multiWrite rest xs now
        (r1 :: res.1, res.2)
      else (r1 :: rest, WriteResult.errShortWrite)
    | (r1, e) => (r1 :: rest, e)

/-- The Go dynamic type of the outbound connection `w` in `Duplicate`:
`net.Dial("udp", …)` yields a `*net.UDPConn`, `net.Dial("tcp", …)` a
`*net.TCPConn`, and `Certificate.Client` wraps the latter into a
`*tls.Conn`. -/
inductive ConnKind
  | udp
  | tcpPlain
  | tcpTLS
deriving Repr, DecidableEq

/-- The type assertion `w.(*net.TCPConn)` in `Duplicate`'s drain loop: only a
plain TCP connection is a `*net.TCPConn`; a TLS-wrapped connection is a
`*tls.Conn` and fails the assertion. -/
def isTCPConn : ConnKind → Bool
  | ConnKind.tcpPlain => true
  | _ => false

/-- Go's `strings.ToLower`, written over the string's characters
(`strings.ToLower` lower-cases each rune; the protocols here are ASCII). -/
def goToLower (s : String) : String :=
  String.mk (s.data.map Char.toLower)

/-- How `Duplicate` builds the outbound connection: an empty protocol
defaults to UDP, `net.Dial` uses the lower-cased protocol, and for TCP
`Certificate.Client` wraps the connection in TLS exactly when a certificate
or key file is configured (`c.Pem == "" && c.Key == ""` returns the inner
connection unchanged). -/
def dialKind (proto pem key : String) : ConnKind :=
  let p := if proto = "" then "udp" else proto
  if goToLower p = "tcp" then
    (if pem = "" ∧ key = "" then ConnKind.tcpPlain else ConnKind.tcpTLS)
  else ConnKind.udp

/-- The error `io.Copy` hands back to `Duplicate`'s loop, when there is
one: `io.EOF` or any other error. -/
inductive CopyErr
  | eof
  | other
deriving Repr, DecidableEq

/-- What one pass of `Duplicate`'s drain loop decides. -/
inductive LoopAction
  | fatal
  | stop
  | next
deriving Repr, DecidableEq

/-- One pass of the drain loop in `Duplicate`, after `io.Copy(w, rc)`
returns `err`: `return err` when `w` is a `*net.TCPConn` and `err != nil`;
`break` when `errors.Is(err, io.EOF)`; otherwise loop again. -/
def loopStep (k : ConnKind) (e : Option CopyErr) : LoopAction :=
  if isTCPConn k = true ∧ e ≠ none then LoopAction.fatal
  else if e = some CopyErr.eof then LoopAction.stop
  else LoopAction.next

/-- One operation of a single-producer/single-consumer history on one ring:
a `ring.Write` of the bytes `xs`, or a `ring.Read` into a fresh caller
buffer of `len` bytes. -/
inductive TraceOp
  | wr (xs : List Byte)
  | rd (len : Nat)
deriving Repr

/-- Run a history of writes and reads against a ring, collecting the chunk
each successful read hands to the caller (the first `n` bytes of the caller
buffer, for a read returning `(n, nil)`).  Any rejected or failed operation
aborts the run. -/
def execOps (r : RingState) (acc : List (List Byte)) : List TraceOp → Option (RingState × List (List Byte))
  | [] => some (r, acc)
  | TraceOp.wr xs :: ops =>
    match ringWrite r xs 0 with
    | (r1, WriteResult.ok _) => execOps r1 acc ops
    | _ => none
  | TraceOp.rd len :: ops =>
    match ringRead r (List.replicate len 0) with
    | (r1, buf, ReadResult.ok n) => execOps r1 (acc ++ [buf.take n]) ops
    | _ => none

/-- The bytes written by a history, in order. -/
def writesOf : List TraceOp → List (List Byte)
  | [] => []
  | TraceOp.wr xs :: ops => xs :: writesOf ops
  | TraceOp.rd _ :: ops => writesOf ops

/-- The number of reads in a history. -/
def countReads : List TraceOp → Nat
  | [] => 0
  | TraceOp.wr _ :: ops => countReads ops
  | TraceOp.rd _ :: ops => 1 + countReads ops

/-- The chunks a history is expected to read back, FIFO: `pending` is the
queue of chunks written but not yet read; each write appends its bytes and
each read yields the oldest pending chunk. -/
def readsOf (pending : List (List Byte)) : List TraceOp → List (List Byte)
  | [] => []
  | TraceOp.wr xs :: ops => readsOf (pending ++ [xs]) ops
  | TraceOp.rd _ :: ops =>
    match pending with
    | [] => readsOf [] ops
    | c :: rest => c :: readsOf rest ops

/-- The positions a write of `size` bytes at cursor `off` touches are
`(off + j) % cap` for `j < size`; this checks that they avoid the region of
every descriptor still in the queue — the operator-side sizing obligation
the spec states for `capacity`. -/
def regionsDisjoint (cap off size : Nat) (q : List Poze) : Bool :=
  q.all (fun pz =>
    (List.range size).all (fun j =>
      (List.range pz.size).all (fun k =>
        decide ((off + j) % cap ≠ (pz.offset + k) % cap))))

/-- The safety conditions of the round-trip property, checked along the
history: every write fits in the storage, is accepted (open ring, queue not
full) and does not overwrite a not-yet-read chunk; every read finds a
pending descriptor and supplies a caller buffer at least as large as it. -/
def safeB (r : RingState) : List TraceOp → Bool
  | [] => true
  | TraceOp.wr xs :: ops =>
    decide (xs.length ≤ r.buffer.length) && !r.closed &&
    decide (r.queue.length < r.qcap) &&
    regionsDisjoint r.buffer.length r.offset xs.length r.queue &&
    safeB (ringWrite r xs 0).1 ops
  | TraceOp.rd len :: ops =>
    match r.queue with
    | [] => false
    | pz :: _ => decide (pz.size ≤ len) && safeB (ringRead r (List.replicate len 0)).1 ops

/-- Data invariant tying a ring state to the list `pending` of chunks
written but not yet read: the storage is non-empty, the cursor is in range,
the descriptor queue matches `pending` index by index, and the storage still
holds every pending chunk's bytes at its (wrapped) region. -/
def RingInv (r : RingState) (pending : List (List Byte)) : Prop :=
  0 < r.buffer.length ∧ r.offset ≤ r.buffer.length ∧
  r.queue.length = pending.length ∧
  ∀ i < r.queue.length,
    (r.queue.getD i default).offset ≤ r.buffer.length ∧
    (r.queue.getD i default).size ≤ r.buffer.length ∧
    (r.queue.getD i default).size = (pending.getD i []).length ∧
    ∀ j < (r.queue.getD i default).size,
      r.buffer.getD (((r.queue.getD i default).offset + j) % r.buffer.length) 0 =
        (pending.getD i []).getD j 0

instance instDecRingInv (r : RingState) (pending : List (List Byte)) :
    Decidable (RingInv r pending) := by
  unfold RingInv
  exact inferInstance

/-- A small open ring whose descriptor queue is full: capacity 2, queue
capacity 1, one undrained descriptor. -/
def ringFullQ : RingState :=
  { buffer := [0, 0], queue := [⟨1, 0, 0⟩], qcap := 1, offset := 1,
    whenZero := true, whenTime := 0, wait := 0, closed := false }

/-- A small open ring whose descriptor queue is empty. -/
def ringEmptyQ : RingState :=
  { buffer := [0, 0], queue := [], qcap := 1, offset := 0,
    whenZero := true, whenTime := 0, wait := 0, closed := false }

/-- A small interval-mode ring (`wait = 5`), fresh (`when` still zero). -/
def ivRing : RingState :=
  { buffer := [0, 0], queue := [], qcap := 1, offset := 0,
    whenZero := true, whenTime := 0, wait := 5, closed := false }

/-- A small interval-mode ring whose `when` timestamp is already set to 20. -/
def ivRing2 : RingState :=
  { buffer := [0, 0], queue := [], qcap := 2, offset := 0,
    whenZero := false, whenTime := 20, wait := 5, closed := false }

/-- Step 1 of the interval-recording history: a write accepted at time 10. -/
def ivS1 : RingState × WriteResult := ringWrite ivRing [1] 10

/-- Step 2: a write at time 20, rejected because the queue is full. -/
def ivS2 : RingState × WriteResult := ringWrite ivS1.1 [2] 20

/-- Step 3: the reader drains the single pending descriptor. -/
def ivS3 : RingState × List Byte × ReadResult := ringRead ivS2.1 [0]

/-- Step 4: a write accepted at time 50. -/
def ivS4 : RingState × WriteResult := ringWrite ivS3.1 [3] 50

/-- A fresh capacity-4 ring for the round-trip history. -/
def w7ring : RingState :=
  { buffer := [0, 0, 0, 0], queue := [], qcap := 2, offset := 0,
    whenZero := true, whenTime := 0, wait := 0, closed := false }

/-- A round-trip history whose cumulative written size (9 bytes) exceeds the
capacity (4 bytes), so the third chunk wraps around the end of storage. -/
def w7ops : List TraceOp :=
  [TraceOp.wr [1, 2, 3], TraceOp.rd 3, TraceOp.wr [4, 5, 6], TraceOp.rd 3,
   TraceOp.wr [7, 8, 9], TraceOp.rd 4]

theorem copyInto_length (dst src : List Byte) (start : Nat) :
    (copyInto dst start src).length = dst.length := by
  simp [copyInto]

theorem copyInto_getD (dst src : List Byte) (start p : Nat) (hp : p < dst.length) :
    (copyInto dst start src).getD p 0 =
      if start ≤ p ∧ p - start < src.length then src.getD (p - start) 0 else dst.getD p 0 := by
  have hp2 : p < (copyInto dst start src).length := by rw [copyInto_length]; exact hp
  rw [List.getD_eq_getElem _ _ hp2]
  simp [copyInto]

theorem getD_drop {A : Type} (l : List A) (n i : Nat) (d : A) (h : n + i < l.length) :
    (l.drop n).getD i d = l.getD (n + i) d := by
  rw [List.getD_eq_getElem _ _ (by simp; omega), List.getD_eq_getElem _ _ h]
  simp

theorem getD_append_left {A : Type} (l1 l2 : List A) (n : Nat) (d : A) (h : n < l1.length) :
    (l1 ++ l2).getD n d = l1.getD n d := by
  rw [List.getD_eq_getElem _ _ (by simp; omega), List.getD_eq_getElem _ _ h]
  exact List.getElem_append_left h

theorem getD_append_last {A : Type} (l1 : List A) (x d : A) :
    (l1 ++ [x]).getD l1.length d = x := by
  rw [List.getD_eq_getElem _ _ (by simp)]
  simp

theorem getD_mem {A : Type} (l : List A) (i : Nat) (d : A) (h : i < l.length) :
    l.getD i d ∈ l := by
  rw [List.getD_eq_getElem _ _ h]
  exact List.getElem_mem _

theorem mod_two_region (a cap : Nat) (h : a < 2 * cap) :
    a % cap = if a < cap then a else a - cap := by
  split
  · exact Nat.mod_eq_of_lt (by assumption)
  · rw [Nat.mod_eq_sub_mod (by omega), Nat.mod_eq_of_lt (by omega)]

theorem writeBuf_length (buffer : List Byte) (off : Nat) (xs : List Byte) :
    (writeBuf buffer off xs).length = buffer.length := by
  unfold writeBuf
  split <;> simp [copyInto_length]

theorem writeBuf_getD_new (buffer xs : List Byte) (off : Nat)
    (hoff : off ≤ buffer.length) (hsz : xs.length ≤ buffer.length)
    (j : Nat) (hj : j < xs.length) :
    (writeBuf buffer off xs).getD ((off + j) % buffer.length) 0 = xs.getD j 0 := by
  unfold writeBuf
  by_cases hwrap : min (buffer.length - off) xs.length < xs.length
  · -- wrapping write: the first copy reaches the end of storage
    rw [if_pos hwrap]
    have hn : min (buffer.length - off) xs.length = buffer.length - off := by omega
    rw [hn]
    have hcap : 0 < buffer.length := by omega
    by_cases hj2 : j < buffer.length - off
    · -- byte j lands before the wrap point
      have hmod : (off + j) % buffer.length = off + j := Nat.mod_eq_of_lt (by omega)
      rw [hmod, copyInto_getD _ _ _ _ (by simp [copyInto_length]; omega)]
      rw [if_neg (by simp [List.length_drop]; omega)]
      rw [copyInto_getD _ _ _ _ (by omega)]
      rw [if_pos (by constructor <;> omega)]
      congr 1
      omega
    · -- byte j wraps to the head of storage
      have hmod : (off + j) % buffer.length = j - (buffer.length - off) := by
        rw [mod_two_region _ _ (by omega), if_neg (by omega)]
        omega
      rw [hmod, copyInto_getD _ _ _ _ (by simp [copyInto_length]; omega)]
      rw [if_pos (by simp [List.length_drop]; omega)]
      rw [getD_drop _ _ _ _ (by omega)]
      congr 1
      omega
  · -- straight write: everything fits between the cursor and the end
    rw [if_neg hwrap]
    have hfit : off + xs.length ≤ buffer.length := by omega
    have hmod : (off + j) % buffer.length = off + j := Nat.mod_eq_of_lt (by omega)
    rw [hmod, copyInto_getD _ _ _ _ (by omega)]
    rw [if_pos (by constructor <;> omega)]
    congr 1
    omega

theorem writeBuf_getD_old (buffer xs : List Byte) (off : Nat)
    (hoff : off ≤ buffer.length) (hsz : xs.length ≤ buffer.length)
    (p : Nat) (hp : p < buffer.length)
    (hdisj : ∀ j < xs.length, (off + j) % buffer.length ≠ p) :
    (writeBuf buffer off xs).getD p 0 = buffer.getD p 0 := by
  unfold writeBuf
  by_cases hwrap : min (buffer.length - off) xs.length < xs.length
  · rw [if_pos hwrap]
    have hn : min (buffer.length - off) xs.length = buffer.length - off := by omega
    rw [hn]
    rw [copyInto_getD _ _ _ _ (by simp [copyInto_length]; omega)]
    rw [if_neg ?hnot]
    case hnot =>
      rintro ⟨-, hlt⟩
      simp only [List.length_drop] at hlt
      refine hdisj ((buffer.length - off) + p) (by omega) ?_
      rw [mod_two_region _ _ (by omega), if_neg (by omega)]
      omega
    rw [copyInto_getD _ _ _ _ hp]
    rw [if_neg ?hnot2]
    case hnot2 =>
      rintro ⟨hle, hlt⟩
      refine hdisj (p - off) (by omega) ?_
      rw [Nat.mod_eq_of_lt (by omega)]
      omega
  · rw [if_neg hwrap]
    rw [copyInto_getD _ _ _ _ hp]
    rw [if_neg ?hnot3]
    case hnot3 =>
      rintro ⟨hle, hlt⟩
      refine hdisj (p - off) (by omega) ?_
      rw [Nat.mod_eq_of_lt (by omega)]
      omega

theorem writeOffset_le (buffer xs : List Byte) (off : Nat)
    (hoff : off ≤ buffer.length) :
    writeOffset buffer off xs ≤ buffer.length := by
  unfold writeOffset
  split <;> omega

theorem writeOffset_mod (buffer xs : List Byte) (off : Nat)
    (hoff : off ≤ buffer.length) (hsz : xs.length ≤ buffer.length) :
    writeOffset buffer off xs % buffer.length = (off + xs.length) % buffer.length := by
  unfold writeOffset
  by_cases hwrap : min (buffer.length - off) xs.length < xs.length
  · rw [if_pos hwrap]
    have h1 : min buffer.length (xs.length - min (buffer.length - off) xs.length) =
        off + xs.length - buffer.length := by omega
    rw [h1, Nat.mod_eq_sub_mod (by omega : buffer.length ≤ off + xs.length)]
  · rw [if_neg hwrap]
    have h1 : min (buffer.length - off) xs.length = xs.length := by omega
    rw [h1]

theorem readBuf_length (buffer : List Byte) (off size : Nat) (xs : List Byte) :
    (readBuf buffer off size xs).length = xs.length := by
  unfold readBuf
  split <;> simp [copyInto_length]

theorem readBuf_getD (buffer : List Byte) (off size : Nat) (xs : List Byte)
    (hoff : off ≤ buffer.length) (hsz : size ≤ buffer.length)
    (hL : size ≤ xs.length) (i : Nat) (hi : i < size) :
    (readBuf buffer off size xs).getD i 0 = buffer.getD ((off + i) % buffer.length) 0 := by
  unfold readBuf
  by_cases hwrap : min xs.length (buffer.length - off) < size
  · rw [if_pos hwrap]
    have hn : min xs.length (buffer.length - off) = buffer.length - off := by omega
    rw [hn]
    by_cases hi2 : i < buffer.length - off
    · have hmod : (off + i) % buffer.length = off + i := Nat.mod_eq_of_lt (by omega)
      rw [hmod, copyInto_getD _ _ _ _ (by simp [copyInto_length]; omega)]
      rw [if_neg (by omega)]
      rw [copyInto_getD _ _ _ _ (by omega)]
      rw [if_pos (by simp [List.length_drop]; omega)]
      rw [Nat.sub_zero, getD_drop _ _ _ _ (by omega)]
    · have hmod : (off + i) % buffer.length = i - (buffer.length - off) := by
        rw [mod_two_region _ _ (by omega), if_neg (by omega)]
        omega
      rw [hmod, copyInto_getD _ _ _ _ (by simp [copyInto_length]; omega)]
      rw [if_pos (by constructor <;> omega)]
  · rw [if_neg hwrap]
    have hmod : (off + i) % buffer.length = off + i := Nat.mod_eq_of_lt (by omega)
    rw [hmod, copyInto_getD _ _ _ _ (by omega)]
    rw [if_pos (by simp [List.length_drop]; omega)]
    rw [Nat.sub_zero, getD_drop _ _ _ _ (by omega)]

theorem readBuf_take (buffer : List Byte) (off size : Nat) (xs c : List Byte)
    (hoff : off ≤ buffer.length) (hsz : size ≤ buffer.length)
    (hL : size ≤ xs.length) (hc : c.length = size)
    (hold : ∀ j < size, buffer.getD ((off + j) % buffer.length) 0 = c.getD j 0) :
    (readBuf buffer off size xs).take size = c := by
  apply List.ext_getElem
  · rw [List.length_take, readBuf_length]
    omega
  · intro i h1 h2
    have hi : i < size := by
      rw [List.length_take, readBuf_length] at h1
      omega
    have e1 : ((readBuf buffer off size xs).take size).getD i 0 =
        (readBuf buffer off size xs).getD i 0 := by
      rw [List.getD_eq_getElem _ _ h1,
          List.getD_eq_getElem _ _ (by rw [readBuf_length]; omega)]
      simp [hi]
    rw [← List.getD_eq_getElem _ 0 h1, ← List.getD_eq_getElem _ 0 h2, e1,
        readBuf_getD buffer off size xs hoff hsz hL i hi, hold i hi]

theorem ringWrite_accept (r : RingState) (xs : List Byte) (now : Int)
    (h1 : r.closed = false) (h2 : r.queue.length < r.qcap) :
    ringWrite r xs now =
      ({ r with
          buffer := writeBuf r.buffer r.offset xs
          offset := writeOffset r.buffer r.offset xs
          whenTime := if 0 < r.wait then now else r.whenTime
          whenZero := if 0 < r.wait then false else r.whenZero
          queue := r.queue ++ [writePoze r xs now] }, WriteResult.ok xs.length) := by
  simp [ringWrite, h1, h2]

theorem ringWrite_reject (r : RingState) (xs : List Byte) (now : Int)
    (h1 : r.closed = false) (h2 : ¬ r.queue.length < r.qcap) :
    ringWrite r xs now =
      ({ r with
          buffer := writeBuf r.buffer r.offset xs
          offset := writeOffset r.buffer r.offset xs
          whenTime := if 0 < r.wait then now else r.whenTime
          whenZero := if 0 < r.wait then false else r.whenZero },
       WriteResult.errClosed) := by
  simp [ringWrite, h1, h2]

theorem multiWrite_nil (xs : List Byte) (now : Int) :
    multiWrite [] xs now = ([], WriteResult.ok xs.length) := rfl

theorem multiWrite_cons_accept (r : RingState) (rs : List RingState)
    (xs : List Byte) (now : Int)
    (h1 : r.closed = false) (h2 : r.queue.length < r.qcap) :
    multiWrite (r :: rs) xs now =
      ((ringWrite r xs now).1 :: (multiWrite rs xs now).1, (multiWrite rs xs now).2) := by
  rw [multiWrite, ringWrite_accept r xs now h1 h2]
  simp

theorem multiWrite_cons_reject (r : RingState) (rs : List RingState)
    (xs : List Byte) (now : Int)
    (h1 : r.closed = false) (h2 : ¬ r.queue.length < r.qcap) :
    multiWrite (r :: rs) xs now = ((ringWrite r xs now).1 :: rs, WriteResult.errClosed) := by
  rw [multiWrite, ringWrite_reject r xs now h1 h2]

theorem writePoze_size (r : RingState) (xs : List Byte) (now : Int) :
    (writePoze r xs now).size = xs.length := by
  unfold writePoze
  split <;> rfl

/-- Claim C5: closing a ring twice succeeds the first time, turns the closed
flag on, and the second close reports "already closed" while leaving the
state exactly as it was — the closed transition happens exactly once, and no
field other than `closed` is touched by either call. -/
theorem ringClose_idem (r : RingState) (h : r.closed = false) :
    (ringClose r).2 = CloseResult.ok ∧
    (ringClose r).1 = { r with closed := true } ∧
    ringClose (ringClose r).1 = ((ringClose r).1, CloseResult.alreadyClosed) := by
  simp [ringClose, h]

theorem ringClose_idem_wit :
    (mkRing 4 0).closed = false ∧
    ((ringClose (mkRing 4 0)).2 = CloseResult.ok ∧
     (ringClose (mkRing 4 0)).1 = { mkRing 4 0 with closed := true } ∧
     ringClose (ringClose (mkRing 4 0)).1 =
       ((ringClose (mkRing 4 0)).1, CloseResult.alreadyClosed)) :=
  ⟨rfl, ringClose_idem (mkRing 4 0) rfl⟩

/-- Claim C6: a read on an empty, closed ring returns end-of-stream and
leaves the state unchanged, so every subsequent read returns end-of-stream
as well; a read on an empty, open ring suspends the caller; a read finding a
pending descriptor neither blocks nor reports end-of-stream. -/
theorem ringRead_closed_empty (r : RingState) (xs ys : List Byte)
    (hq : r.queue = []) (hc : r.closed = true) :
    ringRead r xs = (r, xs, ReadResult.eof) ∧
    ringRead (ringRead r xs).1 ys = (r, ys, ReadResult.eof) ∧
    (∀ r2 : RingState, r2.queue = [] → r2.closed = false →
      ringRead r2 xs = (r2, xs, ReadResult.blocked)) ∧
    (∀ (r3 : RingState) (pz : Poze) (rest : List Poze), r3.queue = pz :: rest →
      (ringRead r3 xs).2.2 ≠ ReadResult.eof ∧ (ringRead r3 xs).2.2 ≠ ReadResult.blocked) := by
  refine ⟨by simp [ringRead, hq, hc], by simp [ringRead, hq, hc], ?_, ?_⟩
  · intro r2 h1 h2
    simp [ringRead, h1, h2]
  · intro r3 pz rest h3
    simp only [ringRead, h3]
    by_cases hlen : xs.length < pz.size <;> simp [hlen]

theorem ringRead_closed_empty_wit :
    (ringClose (mkRing 2 0)).1.queue = [] ∧
    (ringClose (mkRing 2 0)).1.closed = true ∧
    ringRead (ringClose (mkRing 2 0)).1 [0] =
      ((ringClose (mkRing 2 0)).1, [0], ReadResult.eof) ∧
    ringRead (ringRead (ringClose (mkRing 2 0)).1 [0]).1 [0, 0] =
      ((ringClose (mkRing 2 0)).1, [0, 0], ReadResult.eof) :=
  ⟨rfl, rfl, (ringRead_closed_empty _ [0] [0, 0] rfl rfl).1,
   (ringRead_closed_empty _ [0] [0, 0] rfl rfl).2.1⟩

/-- Claim C2, divergence: writing to a ring after it has been closed does
not return a rejection — the `select` chooses the send on the closed queue
channel, which panics in Go even though a `default` branch is present.  The
claim's other cases do hold: a full (still open) queue is rejected
immediately with `ErrClosed`, and an open queue with room accepts. -/
theorem ringWrite_closed_panics :
    (ringWrite (ringClose (mkRing 2 0)).1 [7] 0).2 = WriteResult.panicked ∧
    (ringWrite { mkRing 2 0 with qcap := 1, queue := [⟨1, 0, 0⟩] } [7] 0).2 =
      WriteResult.errClosed ∧
    (ringWrite (mkRing 2 0) [7] 0).2 = WriteResult.ok 1 := by
  refine ⟨rfl, rfl, rfl⟩

/-- Claim C4, counterexample: constructing a route ring with a zero or
negative buffer capacity does not fail — no error path exists, and a ring is
created whose storage silently has the default 8 MiB capacity. -/
theorem ring_zero_size_cx :
    (mkRing 0 5).buffer.length = DefaultBufferSize ∧
    (mkRing (-3) 5).buffer.length = DefaultBufferSize ∧
    (mkRing 0 5).closed = false ∧
    (mkRing 0 5).qcap = DefaultQueueSize := by
  refine ⟨?_, ?_, rfl, rfl⟩ <;> simp [mkRing]

/-- Claim C4 (amended): for every non-positive requested capacity, ring
construction succeeds with no error and silently substitutes the default
capacity of 8 MiB (`DefaultBufferSize`); the resulting ring is open and
usable. -/
theorem ring_nonpositive_default (size delay : Int) (h : size ≤ 0) :
    (mkRing size delay).buffer.length = DefaultBufferSize ∧
    (mkRing size delay).closed = false := by
  simp [mkRing, h]

theorem ring_nonpositive_default_wit :
    ((-7 : Int) ≤ 0) ∧
    ((mkRing (-7) 3).buffer.length = DefaultBufferSize ∧ (mkRing (-7) 3).closed = false) :=
  ⟨by decide, ring_nonpositive_default (-7) 3 (by decide)⟩

/-- Claim C3, counterexample: on a TLS-wrapped TCP destination the outbound
connection is a `*tls.Conn`, so the `w.(*net.TCPConn)` assertion fails and a
non-EOF write error makes the loop continue instead of terminating the
worker — the error is not fatal, contrary to the claim. -/
theorem tls_error_not_fatal_cx :
    dialKind "tcp" "cert.pem" "key.pem" = ConnKind.tcpTLS ∧
    loopStep ConnKind.tcpTLS (some CopyErr.other) = LoopAction.next ∧
    loopStep ConnKind.tcpTLS (some CopyErr.other) ≠ LoopAction.fatal := by
  refine ⟨by decide, by decide, by decide⟩

/-- Claim C3 (amended): in `Duplicate`'s drain loop any error on a plain TCP
connection is fatal, while on a UDP or TLS-wrapped TCP connection a non-EOF
error is transient (the loop continues) and EOF stops the loop cleanly. -/
theorem loopStep_classification (e : CopyErr) (he : e ≠ CopyErr.eof) :
    (∀ e2 : CopyErr, loopStep ConnKind.tcpPlain (some e2) = LoopAction.fatal) ∧
    loopStep ConnKind.udp (some e) = LoopAction.next ∧
    loopStep ConnKind.tcpTLS (some e) = LoopAction.next ∧
    loopStep ConnKind.udp none = LoopAction.next ∧
    loopStep ConnKind.udp (some CopyErr.eof) = LoopAction.stop ∧
    loopStep ConnKind.tcpTLS (some CopyErr.eof) = LoopAction.stop := by
  cases e with
  | eof => exact absurd rfl he
  | other =>
    exact ⟨fun e2 => by cases e2 <;> decide, by decide, by decide, by decide, by decide,
      by decide⟩

theorem loopStep_classification_wit :
    (CopyErr.other ≠ CopyErr.eof) ∧
    loopStep ConnKind.tcpPlain (some CopyErr.other) = LoopAction.fatal ∧
    loopStep ConnKind.udp (some CopyErr.other) = LoopAction.next ∧
    loopStep ConnKind.tcpTLS (some CopyErr.other) = LoopAction.next :=
  ⟨by decide, (loopStep_classification CopyErr.other (by decide)).1 CopyErr.other,
   (loopStep_classification CopyErr.other (by decide)).2.1,
   (loopStep_classification CopyErr.other (by decide)).2.2.1⟩

/-- Claim C1, counterexample: the fan-out writer is `io.MultiWriter`, which
stops at the first error.  With two sinks, the first full (open, queue at
capacity) and the second open with room, a write is rejected by the first
sink and the second sink — which would have accepted — receives nothing: its
queue stays empty. -/
theorem multiWrite_aborts_cx :
    (multiWrite [ringFullQ, ringEmptyQ] [7] 0).2 = WriteResult.errClosed ∧
    ((multiWrite [ringFullQ, ringEmptyQ] [7] 0).1.getD 1 default).queue = [] ∧
    ringFullQ.closed = false ∧
    ringEmptyQ.closed = false ∧
    ringEmptyQ.queue.length < ringEmptyQ.qcap := by
  refine ⟨rfl, rfl, rfl, rfl, by decide⟩

/-- Claim C1 (amended): a rejected write splits the fan-out — every sink
before the rejecting one still receives the bytes (its queue is extended by
the new descriptor), while the rejecting sink drops the descriptor and every
sink after it is left completely untouched; replication is aborted, not
continued, at the first rejection. -/
theorem multiWrite_rejection_splits (l rest : List RingState) (m : RingState)
    (xs : List Byte) (now : Int)
    (hl : ∀ r ∈ l, r.closed = false ∧ r.queue.length < r.qcap)
    (hm : m.closed = false) (hfull : ¬ m.queue.length < m.qcap) :
    multiWrite (l ++ m :: rest) xs now =
      (l.map (fun r => (ringWrite r xs now).1) ++ (ringWrite m xs now).1 :: rest,
       WriteResult.errClosed) ∧
    ∀ r ∈ l, (ringWrite r xs now).1.queue = r.queue ++ [writePoze r xs now] := by
  constructor
  · induction l with
    | nil =>
      simpa using multiWrite_cons_reject m rest xs now hm hfull
    | cons a l ih =>
      obtain ⟨ha1, ha2⟩ := hl a (List.mem_cons_self a l)
      have ih' := ih (fun r hr => hl r (List.mem_cons_of_mem a hr))
      rw [List.cons_append, multiWrite_cons_accept a (l ++ m :: rest) xs now ha1 ha2, ih']
      simp
  · intro r hr
    obtain ⟨h1, h2⟩ := hl r hr
    rw [ringWrite_accept r xs now h1 h2]

theorem multiWrite_rejection_splits_wit :
    (ringEmptyQ.closed = false ∧ ringEmptyQ.queue.length < ringEmptyQ.qcap) ∧
    ringFullQ.closed = false ∧
    ¬ ringFullQ.queue.length < ringFullQ.qcap ∧
    multiWrite [ringEmptyQ, ringFullQ, ringEmptyQ] [9] 0 =
      ([(ringWrite ringEmptyQ [9] 0).1, (ringWrite ringFullQ [9] 0).1, ringEmptyQ],
       WriteResult.errClosed) :=
  ⟨⟨rfl, by decide⟩, rfl, by decide,
    by
      have h := (multiWrite_rejection_splits [ringEmptyQ] [ringEmptyQ] ringFullQ [9] 0
        (by intro r hr; simp at hr; subst hr; exact ⟨rfl, by decide⟩)
        rfl (by decide)).1
      simpa using h⟩

/-- Claim C8, counterexample: in interval mode the `when` timestamp is
updated by every write, accepted or rejected.  After a chunk accepted at
time 10, a write rejected at time 20 and a drain, the chunk accepted at
time 50 records an elapsed delay of 30 (the gap since the rejected write),
not 40 (the gap since the previous chunk accepted by the buffer). -/
theorem elapsed_rejected_cx :
    ivS1.2 = WriteResult.ok 1 ∧
    (ivS1.1.queue.getD 0 default).elapsed = 5 ∧
    ivS2.2 = WriteResult.errClosed ∧
    ivS3.2.2 = ReadResult.ok 1 ∧
    ivS4.2 = WriteResult.ok 1 ∧
    (ivS4.1.queue.getD 0 default).elapsed = 30 ∧
    (30 : Int) ≠ 50 - 10 := by
  refine ⟨rfl, rfl, rfl, rfl, rfl, rfl, by decide⟩

/-- Claim C8 (amended): in interval mode (`wait > 0`) the delay recorded in
a chunk's descriptor equals the wall-clock time since the previous write
call on that ring — whether or not that previous write was accepted — and
the very first write call records the configured fixed delay; every write
call, accepted or rejected, moves the timestamp to its own time. -/
theorem elapsed_since_prev_write (r : RingState) (xs : List Byte) (now : Int)
    (hw : 0 < r.wait) :
    (r.whenZero = true → (writePoze r xs now).elapsed = r.wait) ∧
    (r.whenZero = false → (writePoze r xs now).elapsed = now - r.whenTime) ∧
    (writePoze r xs now).size = xs.length ∧
    (ringWrite r xs now).1.whenTime = now ∧
    (ringWrite r xs now).1.whenZero = false ∧
    (r.closed = false → r.queue.length < r.qcap →
      (ringWrite r xs now).1.queue = r.queue ++ [writePoze r xs now]) := by
  refine ⟨?_, ?_, writePoze_size r xs now, ?_, ?_, ?_⟩
  · intro h
    simp [writePoze, h]
  · intro h
    simp [writePoze, h, hw]
  · unfold ringWrite
    by_cases hc : r.closed <;> by_cases hq : r.queue.length < r.qcap <;> simp [hc, hq, hw]
  · unfold ringWrite
    by_cases hc : r.closed <;> by_cases hq : r.queue.length < r.qcap <;> simp [hc, hq, hw]
  · intro h1 h2
    rw [ringWrite_accept r xs now h1 h2]

theorem elapsed_since_prev_write_wit :
    ((0 : Int) < ivRing2.wait ∧ ivRing2.whenZero = false) ∧
    (writePoze ivRing2 [9] 50).elapsed = 50 - 20 ∧
    (ringWrite ivRing2 [9] 50).1.whenTime = 50 :=
  ⟨⟨by decide, rfl⟩,
   (elapsed_since_prev_write ivRing2 [9] 50 (by decide)).2.1 rfl,
   (elapsed_since_prev_write ivRing2 [9] 50 (by decide)).2.2.2.1⟩

/-- Claim C9: a write rejected because the descriptor queue is full has
already copied its bytes into circular storage and advanced the write cursor
by the write's size (modulo capacity) before reporting the rejection; the
storage ends up exactly as it would after an accepted write of the same
bytes. -/
theorem rejected_write_mutates (r : RingState) (xs : List Byte) (now : Int)
    (hopen : r.closed = false) (hfull : ¬ r.queue.length < r.qcap)
    (hoff : r.offset ≤ r.buffer.length) (hsz : xs.length ≤ r.buffer.length) :
    (ringWrite r xs now).2 = WriteResult.errClosed ∧
    (ringWrite r xs now).1.buffer = writeBuf r.buffer r.offset xs ∧
    (∀ j < xs.length,
      (ringWrite r xs now).1.buffer.getD ((r.offset + j) % r.buffer.length) 0 =
        xs.getD j 0) ∧
    (ringWrite r xs now).1.offset % r.buffer.length =
      (r.offset + xs.length) % r.buffer.length ∧
    (ringWrite r xs now).1.buffer =
      (ringWrite { r with qcap := r.queue.length + 1 } xs now).1.buffer := by
  rw [ringWrite_reject r xs now hopen hfull]
  refine ⟨rfl, rfl, ?_, ?_, ?_⟩
  · intro j hj
    exact writeBuf_getD_new r.buffer xs r.offset hoff hsz j hj
  · exact writeOffset_mod r.buffer xs r.offset hoff hsz
  · rw [ringWrite_accept { r with qcap := r.queue.length + 1 } xs now hopen (by simp)]

theorem rejected_write_mutates_wit :
    (ringFullQ.closed = false ∧ ¬ ringFullQ.queue.length < ringFullQ.qcap ∧
     ringFullQ.offset ≤ ringFullQ.buffer.length ∧
     ([7] : List Byte).length ≤ ringFullQ.buffer.length) ∧
    (ringWrite ringFullQ [7] 0).2 = WriteResult.errClosed ∧
    (ringWrite ringFullQ [7] 0).1.buffer.getD
      ((ringFullQ.offset + 0) % ringFullQ.buffer.length) 0 = ([7] : List Byte).getD 0 0 :=
  ⟨⟨rfl, by decide, by decide, by decide⟩,
   (rejected_write_mutates ringFullQ [7] 0 rfl (by decide) (by decide) (by decide)).1,
   (rejected_write_mutates ringFullQ [7] 0 rfl (by decide) (by decide) (by decide)).2.2.1
     0 (by decide)⟩

/-- Claim C10: a write larger than the storage capacity, offered to an open
ring with queue room, still reports full success — it returns the complete
input length with no error and enqueues a descriptor whose recorded size
exceeds the capacity — even though the storage, whose length is unchanged,
can retain at most capacity bytes of the input. -/
theorem oversized_write_ok (r : RingState) (xs : List Byte) (now : Int)
    (hopen : r.closed = false) (hroom : r.queue.length < r.qcap)
    (hbig : r.buffer.length < xs.length) :
    (ringWrite r xs now).2 = WriteResult.ok xs.length ∧
    (ringWrite r xs now).1.queue = r.queue ++ [writePoze r xs now] ∧
    (writePoze r xs now).size = xs.length ∧
    r.buffer.length < (writePoze r xs now).size ∧
    (ringWrite r xs now).1.buffer.length = r.buffer.length := by
  rw [ringWrite_accept r xs now hopen hroom]
  refine ⟨rfl, rfl, writePoze_size r xs now, ?_, writeBuf_length r.buffer r.offset xs⟩
  rw [writePoze_size r xs now]
  exact hbig

theorem oversized_write_ok_wit :
    (ringEmptyQ.closed = false ∧ ringEmptyQ.queue.length < ringEmptyQ.qcap ∧
     ringEmptyQ.buffer.length < ([1, 2, 3] : List Byte).length) ∧
    (ringWrite ringEmptyQ [1, 2, 3] 0).2 = WriteResult.ok 3 ∧
    ringEmptyQ.buffer.length < (writePoze ringEmptyQ [1, 2, 3] 0).size ∧
    (ringWrite ringEmptyQ [1, 2, 3] 0).1.buffer.length = ringEmptyQ.buffer.length :=
  ⟨⟨rfl, by decide, by decide⟩,
   (oversized_write_ok ringEmptyQ [1, 2, 3] 0 rfl (by decide) (by decide)).1,
   (oversized_write_ok ringEmptyQ [1, 2, 3] 0 rfl (by decide) (by decide)).2.2.2.1,
   (oversized_write_ok ringEmptyQ [1, 2, 3] 0 rfl (by decide) (by decide)).2.2.2.2⟩

theorem writePoze_offset (r : RingState) (xs : List Byte) (now : Int) :
    (writePoze r xs now).offset = r.offset := by
  unfold writePoze
  split <;> rfl

theorem regionsDisjoint_spec (cap off size : Nat) (q : List Poze)
    (h : regionsDisjoint cap off size q = true) :
    ∀ pz ∈ q, ∀ j < size, ∀ k < pz.size, (off + j) % cap ≠ (pz.offset + k) % cap := by
  intro pz hpz j hj k hk
  unfold regionsDisjoint at h
  rw [List.all_eq_true] at h
  have h2 := h pz hpz
  rw [List.all_eq_true] at h2
  have h3 := h2 j (List.mem_range.mpr hj)
  rw [List.all_eq_true] at h3
  have h4 := h3 k (List.mem_range.mpr hk)
  exact of_decide_eq_true h4

theorem RingInv_write (r : RingState) (pending : List (List Byte))
    (xs : List Byte) (now : Int)
    (hinv : RingInv r pending) (hsz : xs.length ≤ r.buffer.length)
    (hopen : r.closed = false) (hroom : r.queue.length < r.qcap)
    (hdisj : regionsDisjoint r.buffer.length r.offset xs.length r.queue = true) :
    RingInv (ringWrite r xs now).1 (pending ++ [xs]) := by
  obtain ⟨hcap, hoffle, hqlen, hq⟩ := hinv
  rw [ringWrite_accept r xs now hopen hroom]
  unfold RingInv
  dsimp only
  refine ⟨?_, ?_, ?_, ?_⟩
  · rw [writeBuf_length]
    exact hcap
  · rw [writeBuf_length]
    exact writeOffset_le r.buffer xs r.offset hoffle
  · simp [hqlen]
  · intro i hi
    simp only [writeBuf_length, List.length_append, List.length_singleton] at hi ⊢
    by_cases hlt : i < r.queue.length
    · rw [getD_append_left _ _ _ _ hlt, getD_append_left _ _ _ _ (by omega)]
      obtain ⟨g1, g2, g3, g4⟩ := hq i hlt
      refine ⟨g1, g2, g3, ?_⟩
      intro j hj
      rw [writeBuf_getD_old r.buffer xs r.offset hoffle hsz _ (Nat.mod_lt _ hcap) ?_]
      · exact g4 j hj
      · intro j2 hj2
        exact regionsDisjoint_spec r.buffer.length r.offset xs.length r.queue hdisj
          (r.queue.getD i default) (getD_mem _ i _ hlt) j2 hj2 j hj
    · have hieq : i = r.queue.length := by omega
      subst hieq
      rw [getD_append_last, hqlen, getD_append_last]
      refine ⟨?_, ?_, ?_, ?_⟩
      · rw [writePoze_offset]
        exact hoffle
      · rw [writePoze_size]
        exact hsz
      · rw [writePoze_size]
      · intro j hj
        rw [writePoze_size] at hj
        rw [writePoze_offset]
        exact writeBuf_getD_new r.buffer xs r.offset hoffle hsz j hj

theorem ringRead_step (r : RingState) (c : List Byte) (prest : List (List Byte))
    (xs : List Byte) (pz : Poze) (qrest : List Poze)
    (hinv : RingInv r (c :: prest)) (hq : r.queue = pz :: qrest)
    (hL : pz.size ≤ xs.length) :
    ringRead r xs =
      ({ r with queue := qrest }, readBuf r.buffer pz.offset pz.size xs,
       ReadResult.ok pz.size) ∧
    (readBuf r.buffer pz.offset pz.size xs).take pz.size = c ∧
    RingInv { r with queue := qrest } prest := by
  obtain ⟨hcap, hoffle, hqlen, hall⟩ := hinv
  have h0 := hall 0 (by rw [hq]; simp)
  rw [hq] at h0
  simp only [List.getD_cons_zero] at h0
  obtain ⟨g1, g2, g3, g4⟩ := h0
  refine ⟨?_, ?_, ?_⟩
  · simp only [ringRead, hq]
    rw [if_neg (by omega)]
  · exact readBuf_take r.buffer pz.offset pz.size xs c g1 g2 hL g3.symm g4
  · unfold RingInv
    dsimp only
    refine ⟨hcap, hoffle, ?_, ?_⟩
    · have hlen2 : (pz :: qrest).length = (c :: prest).length := by
        rw [← hq]
        exact hqlen
      simpa using hlen2
    · intro i hi
      have h1 := hall (i + 1) (by rw [hq]; simpa using Nat.succ_lt_succ hi)
      rw [hq] at h1
      simpa only [List.getD_cons_succ] using h1

theorem execOps_sound (ops : List TraceOp) :
    ∀ (r : RingState) (pending acc : List (List Byte)),
    RingInv r pending → safeB r ops = true →
    (∃ r1, execOps r acc ops = some (r1, acc ++ readsOf pending ops)) ∧
    readsOf pending ops = (pending ++ writesOf ops).take (countReads ops) := by
  induction ops with
  | nil =>
    intro r pending acc hinv hsafe
    refine ⟨⟨r, by simp [execOps, readsOf]⟩, by simp [readsOf, writesOf, countReads]⟩
  | cons op ops ih =>
    intro r pending acc hinv hsafe
    cases op with
    | wr xs =>
      rw [safeB] at hsafe
      simp only [Bool.and_eq_true, decide_eq_true_eq, Bool.not_eq_true'] at hsafe
      obtain ⟨⟨⟨⟨hsz, hopen⟩, hroom⟩, hdisj⟩, hrest⟩ := hsafe
      have hinv2 := RingInv_write r pending xs 0 hinv hsz hopen hroom hdisj
      obtain ⟨⟨r1, hexec⟩, hreads⟩ := ih (ringWrite r xs 0).1 (pending ++ [xs]) acc hinv2 hrest
      have hstep : execOps r acc (TraceOp.wr xs :: ops) = execOps (ringWrite r xs 0).1 acc ops := by
        rw [execOps, ringWrite_accept r xs 0 hopen hroom]
      refine ⟨⟨r1, ?_⟩, ?_⟩
      · rw [hstep, hexec, readsOf]
      · rw [readsOf, writesOf, countReads, hreads]
        simp
    | rd len =>
      cases hq : r.queue with
      | nil =>
        rw [safeB, hq] at hsafe
        simp at hsafe
      | cons pz qrest =>
        rw [safeB, hq] at hsafe
        simp only [Bool.and_eq_true, decide_eq_true_eq] at hsafe
        obtain ⟨hL, hrest⟩ := hsafe
        cases pending with
        | nil =>
          exfalso
          have hlen := hinv.2.2.1
          rw [hq] at hlen
          simp at hlen
        | cons c prest =>
          obtain ⟨hred, htake, hinv2⟩ :=
            ringRead_step r c prest (List.replicate len 0) pz qrest hinv hq (by simpa using hL)
          have hrest2 : safeB { r with queue := qrest } ops = true := by
            rw [hred] at hrest
            exact hrest
          obtain ⟨⟨r1, hexec⟩, hreads⟩ := ih { r with queue := qrest } prest (acc ++ [c]) hinv2 hrest2
          have hstep : execOps r acc (TraceOp.rd len :: ops) =
              execOps { r with queue := qrest } (acc ++ [c]) ops := by
            rw [execOps, hred]
            dsimp only
            rw [htake]
          refine ⟨⟨r1, ?_⟩, ?_⟩
          · rw [hstep, hexec, readsOf]
            simp
          · rw [readsOf, countReads, writesOf, hreads]
            simp [Nat.add_comm]

/-- Claim C7: for every history of writes and reads on one ring that
satisfies the claim's side conditions — every write accepted, no larger than
the capacity, and never overlapping a not-yet-read chunk; every read finding
a descriptor and supplying a large-enough caller buffer — the reads hand
back exactly the written chunks, in write order, byte for byte (so with
matching sizes), including histories whose cumulative written size exceeds
the capacity and wraps around the end of storage. -/
theorem ring_roundtrip_ordered (ops : List TraceOp) (r : RingState)
    (hinv : RingInv r []) (hsafe : safeB r ops = true) :
    ∃ r1, execOps r [] ops = some (r1, readsOf [] ops) ∧
      readsOf [] ops = (writesOf ops).take (countReads ops) := by
  obtain ⟨⟨r1, hexec⟩, hreads⟩ := execOps_sound ops r [] [] hinv hsafe
  exact ⟨r1, by simpa using hexec, by simpa using hreads⟩

theorem ring_roundtrip_ordered_wit :
    RingInv w7ring [] ∧ safeB w7ring w7ops = true ∧
    ∃ r1, execOps w7ring [] w7ops = some (r1, readsOf [] w7ops) ∧
      readsOf [] w7ops = (writesOf w7ops).take (countReads w7ops) :=
  ⟨by decide, by decide, ring_roundtrip_ordered w7ops w7ring (by decide) (by decide)⟩

end Duplicate
